import Mathlib

/-!
Verification of the monograph discovery-and-revalidation engine of
pillscan/pillscan-updater (src/monograph.py and the HEAD-check loop of
src/run_pipeline.py), as a shallow embedding over `List Char` / `String`.
Network calls are abstracted by passing the HTTP response (or a transport
failure) as a value; all parsing, scoring and state-update logic is
translated directly from the source.  Python's `str.lower` and
case-insensitive regex matching are modelled for ASCII characters, which
covers every token the code matches on.
-/

namespace PillScan

/-! ### Character and string helpers -/

/-- ASCII lower-casing of one character, as Python `str.lower` acts on the
ASCII range. -/
def lowerChar (c : Char) : Char :=
  if 65 ≤ c.toNat ∧ c.toNat ≤ 90 then Char.ofNat (c.toNat + 32) else c

/-- ASCII lower-casing of a character list (model of Python `str.lower`). -/
def strLower (l : List Char) : List Char := l.map lowerChar

/-- Case-sensitive prefix test on character lists. -/
def isPrefixL : List Char → List Char → Bool
  | [], _ => true
  | _ :: _, [] => false
  | a :: as, b :: bs => if a = b then isPrefixL as bs else false

/-- Substring test: does `n` occur contiguously inside the second list? -/
def containsSub (n : List Char) : List Char → Bool
  | [] => isPrefixL n []
  | c :: t => isPrefixL n (c :: t) || containsSub n t

/-- Case-insensitive (ASCII) prefix match, as used by `re.IGNORECASE`
matching of a literal pattern. -/
def matchCI : List Char → List Char → Bool
  | [], _ => true
  | _ :: _, [] => false
  | a :: as, b :: bs => if lowerChar a = lowerChar b then matchCI as bs else false

/-- Python regex `\s` / `str.strip` whitespace, ASCII part. -/
def isWsChar (c : Char) : Bool :=
  c = ' ' || c = '\t' || c = '\n' || c = '\r' || c = '\x0b' || c = '\x0c'

/-- Model of Python `str.strip()`. -/
def stripL (l : List Char) : List Char :=
  ((l.dropWhile isWsChar).reverse.dropWhile isWsChar).reverse

def dval (c : Char) : Nat := c.toNat - 48

/-! ### `_parse_date` (src/monograph.py lines 10–20)

`datetime.strptime` compiles each format into a regex that must consume the
whole string:
  `%Y` is exactly four digits, `%m` is `1[0-2]|0[1-9]|[1-9]`,
  `%d` is `3[01]|[12]\d|0[1-9]|[1-9]`, `%b`/`%B` are the English month
names matched case-insensitively; a regex match is then validated by the
`datetime` constructor (day must exist in the month, year ≥ 1).  Each
component parser below returns its alternatives in the regex's alternation
order and the sequencing backtracks through them, mirroring the regex
engine. -/

/-- `%Y`: exactly four digits. -/
def parseY : List Char → Option (Nat × List Char)
  | a :: b :: c :: d :: r =>
    if a.isDigit ∧ b.isDigit ∧ c.isDigit ∧ d.isDigit then
      some (1000 * dval a + 100 * dval b + 10 * dval c + dval d, r)
    else none
  | _ => none

/-- `%m`: alternatives of `1[0-2]|0[1-9]|[1-9]` in regex order. -/
def parseM (l : List Char) : List (Nat × List Char) :=
  (match l with
   | a :: c :: r => if a = '1' ∧ '0' ≤ c ∧ c ≤ '2' then [(10 + dval c, r)] else []
   | _ => []) ++
  (match l with
   | a :: c :: r => if a = '0' ∧ '1' ≤ c ∧ c ≤ '9' then [(dval c, r)] else []
   | _ => []) ++
  (match l with
   | c :: r => if '1' ≤ c ∧ c ≤ '9' then [(dval c, r)] else []
   | _ => [])

/-- `%d`: alternatives of `3[01]|[12]\d|0[1-9]|[1-9]` in regex order. -/
def parseD (l : List Char) : List (Nat × List Char) :=
  (match l with
   | a :: c :: r => if a = '3' ∧ (c = '0' ∨ c = '1') then [(30 + dval c, r)] else []
   | _ => []) ++
  (match l with
   | c1 :: c2 :: r =>
     if (c1 = '1' ∨ c1 = '2') ∧ c2.isDigit then [(10 * dval c1 + dval c2, r)] else []
   | _ => []) ++
  (match l with
   | a :: c :: r => if a = '0' ∧ '1' ≤ c ∧ c ≤ '9' then [(dval c, r)] else []
   | _ => []) ++
  (match l with
   | c :: r => if '1' ≤ c ∧ c ≤ '9' then [(dval c, r)] else []
   | _ => [])

/-- Abbreviated English month names for `%b` (C locale). -/
def monAbbrs : List (List Char × Nat) :=
  [("jan".data, 1), ("feb".data, 2), ("mar".data, 3), ("apr".data, 4),
   ("may".data, 5), ("jun".data, 6), ("jul".data, 7), ("aug".data, 8),
   ("sep".data, 9), ("oct".data, 10), ("nov".data, 11), ("dec".data, 12)]

/-- Full English month names for `%B` (C locale). -/
def monFulls : List (List Char × Nat) :=
  [("january".data, 1), ("february".data, 2), ("march".data, 3),
   ("april".data, 4), ("may".data, 5), ("june".data, 6), ("july".data, 7),
   ("august".data, 8), ("september".data, 9), ("october".data, 10),
   ("november".data, 11), ("december".data, 12)]

/-- Match a month name from a table, case-insensitively (no table entry is
a prefix of another, so at most one matches). -/
def parseMonName (tbl : List (List Char × Nat)) (l : List Char) :
    Option (Nat × List Char) :=
  tbl.findSome? fun nm =>
    if matchCI nm.1 l then some (nm.2, l.drop nm.1.length) else none

/-- Expect one literal character. -/
def expectC (c : Char) : List Char → Option (List Char)
  | a :: r => if a = c then some r else none
  | [] => none

/-- `%Y<sep>%m<sep>%d`, whole string. -/
def fmtYMD (sep : Char) (l : List Char) : Option (Nat × Nat × Nat) :=
  match parseY l with
  | none => none
  | some (y, r1) =>
    match expectC sep r1 with
    | none => none
    | some r2 =>
      (parseM r2).findSome? fun mm =>
        match expectC sep mm.2 with
        | none => none
        | some r4 =>
          (parseD r4).findSome? fun dd =>
            if dd.2 = [] then some (y, mm.1, dd.1) else none

/-- `%d-<month name>-%Y`, whole string. -/
def fmtDMonY (tbl : List (List Char × Nat)) (l : List Char) :
    Option (Nat × Nat × Nat) :=
  (parseD l).findSome? fun dd =>
    match expectC '-' dd.2 with
    | none => none
    | some r2 =>
      match parseMonName tbl r2 with
      | none => none
      | some (m, r3) =>
        match expectC '-' r3 with
        | none => none
        | some r4 =>
          match parseY r4 with
          | none => none
          | some (y, r5) => if r5 = [] then some (y, m, dd.1) else none

/-- `%d/%m/%Y`, whole string. -/
def fmtDMY (l : List Char) : Option (Nat × Nat × Nat) :=
  (parseD l).findSome? fun dd =>
    match expectC '/' dd.2 with
    | none => none
    | some r2 =>
      (parseM r2).findSome? fun mm =>
        match expectC '/' mm.2 with
        | none => none
        | some r4 =>
          match parseY r4 with
          | none => none
          | some (y, r5) => if r5 = [] then some (y, mm.1, dd.1) else none

def isLeap (y : Nat) : Bool := y % 4 = 0 ∧ (y % 100 ≠ 0 ∨ y % 400 = 0)

def daysInMonth (y m : Nat) : Nat :=
  if m = 2 then (if isLeap y then 29 else 28)
  else if m = 4 ∨ m = 6 ∨ m = 9 ∨ m = 11 then 30
  else 31

/-- Validation done by the `datetime` constructor after the regex match. -/
def validYMD (y m d : Nat) : Bool :=
  1 ≤ y ∧ 1 ≤ m ∧ m ≤ 12 ∧ 1 ≤ d ∧ d ≤ daysInMonth y m

def digitChar (n : Nat) : Char := Char.ofNat (48 + n % 10)

def pad2 (n : Nat) : List Char := [digitChar (n / 10), digitChar n]

def pad4 (n : Nat) : List Char :=
  [digitChar (n / 1000), digitChar (n / 100), digitChar (n / 10), digitChar n]

/-- `date.isoformat()`. -/
def isoOfYMD (y m d : Nat) : List Char :=
  pad4 y ++ '-' :: (pad2 m ++ '-' :: pad2 d)

/-- The five formats of `_parse_date`, in source order; a regex match with
an invalid calendar date raises and falls through to the next format. -/
def tryFormats (t : List Char) : Option (Nat × Nat × Nat) :=
  [fmtYMD '-', fmtDMonY monAbbrs, fmtDMonY monFulls, fmtYMD '/', fmtDMY].findSome?
    fun f =>
      match f t with
      | some (y, m, d) => if validYMD y m d then some (y, m, d) else none
      | none => none

/-- `re.search(r"(20\d{2}|19\d{2})", s)`: leftmost four-character window
starting `20` or `19` followed by two digits. -/
def findYear : List Char → Option (List Char)
  | a :: b :: c :: d :: rest =>
    if ((a = '2' ∧ b = '0') ∨ (a = '1' ∧ b = '9')) ∧ c.isDigit ∧ d.isDigit then
      some [a, b, c, d]
    else findYear (b :: c :: d :: rest)
  | _ => none

/-- `_parse_date` on character lists (src/monograph.py lines 10–20). -/
def _parse_date_chars (s : List Char) : Option (List Char) :=
  let t := stripL s
  match tryFormats t with
  | some (y, m, d) => some (isoOfYMD y m d)
  | none =>
    match findYear t with
    | some y4 => some (y4 ++ "-01-01".data)
    | none => none

/-- `_parse_date` (src/monograph.py lines 10–20). -/
def _parse_date (s : String) : Option String :=
  (_parse_date_chars s.data).map List.asString

/-! ### `_best_pdf_from_html` (src/monograph.py lines 22–33)

`re.findall(r'href="([^"]+\.pdf[^"]*)"', html, flags=re.IGNORECASE)` scans
left to right: at each position where `href="` matches case-insensitively,
the capture is the run of non-quote characters up to the next `"`, and the
run matches iff it contains `.pdf` (case-insensitively) at index ≥ 1; after
a successful match the scan resumes past the closing quote, otherwise at
the next character. -/

def hrefPat : List Char := "href=\"".data

def pdfToken : List Char := ".pdf".data

/-- Split at the first `"`: returns the run before it and the rest after. -/
def splitQuote : List Char → Option (List Char × List Char)
  | [] => none
  | c :: t =>
    if c = '"' then some ([], t)
    else (splitQuote t).map fun p => (c :: p.1, p.2)

/-- Does the candidate run satisfy `[^"]+\.pdf[^"]*` (case-insensitive)? -/
def pdfOk (run : List Char) : Bool := containsSub pdfToken (strLower (run.drop 1))

/-- Fuelled scanner for the `findall`; fuel bounds the number of scan
steps and `l.length` suffices since every step drops at least one char. -/
def findPdfsF : Nat → List Char → List (List Char)
  | 0, _ => []
  | _ + 1, [] => []
  | fuel + 1, c :: t =>
    if matchCI hrefPat (c :: t) then
      match splitQuote ((c :: t).drop hrefPat.length) with
      | some (run, rest) =>
        if pdfOk run then run :: findPdfsF fuel rest else findPdfsF fuel t
      | none => findPdfsF fuel t
    else findPdfsF fuel t

/-- All `findall` candidates in markup order. -/
def findPdfs (l : List Char) : List (List Char) := findPdfsF l.length l

def engToken : List Char := "eng".data

def fraToken : List Char := "fra".data

def canonicalUrlStart : List Char := "https://health-products.canada.ca".data

/-- The `score` closure of `_best_pdf_from_html`: +2 for "eng", −2 for
"fra", +1 when the lowercased URL starts with the canonical https URL. -/
def score (u : List Char) : Int :=
  (if containsSub engToken (strLower u) then 2 else 0) +
  (if containsSub fraToken (strLower u) then -2 else 0) +
  (if isPrefixL canonicalUrlStart (strLower u) then 1 else 0)

/-- One step of `sorted(key=score, reverse=True)[0]`: keep the current
best unless the next candidate scores strictly higher (Python's sort is
stable, so ties keep the earlier candidate). -/
def pickStep (b c : List Char) : List Char := if score b < score c then c else b

/-- First candidate of maximal score (the head of the stable descending
sort). -/
def pickBest : List (List Char) → Option (List Char)
  | [] => none
  | h :: t => some (t.foldl pickStep h)

/-- `_best_pdf_from_html` (src/monograph.py lines 22–33). -/
def _best_pdf_from_html (html : String) : Option String :=
  (pickBest (findPdfs html.data)).map List.asString

/-! ### `_find_revision_date` (src/monograph.py lines 35–42)

For each label in order, `re.search(rf"{lab}[^<:]*[:>]\s*([A-Za-z0-9/\- ]{6,30})",
html, re.IGNORECASE)`; if the search matches, the capture is fed to
`_parse_date`, and on a parse failure the code moves to the *next label*.
The search is leftmost-start; at a fixed start the regex backtracks the
`[^<:]*` width (longest first) and then the `\s*` width (longest first);
the capture is greedy with nothing after it, so it is the class run capped
at 30, acceptable when at least 6 long. -/

/-- The capture class `[A-Za-z0-9/\- ]` (ASCII letters and digits). -/
def classChar (c : Char) : Bool :=
  c.isAlpha || c.isDigit || c = '/' || c = '-' || c = ' '

/-- The `[:>]` terminator test on an optional lookahead character. -/
def termOkC : Option Char → Bool
  | some c => c = ':' || c = '>'
  | none => false

/-- Backtracking over the `\s*` width: try consuming `ws` whitespace
characters (the maximum) first, then fewer, until the greedy capture
(class run capped at 30) reaches length ≥ 6. -/
def capLoop (after : List Char) : Nat → Option (List Char)
  | 0 =>
    let cap := ((after.takeWhile classChar).take 30)
    if 6 ≤ cap.length then some cap else none
  | n + 1 =>
    let cap := (((after.drop (n + 1)).takeWhile classChar).take 30)
    if 6 ≤ cap.length then some cap else capLoop after n

/-- `\s*(...)` starting right after the `[:>]` character. -/
def tryCap (after : List Char) : Option (List Char) :=
  capLoop after (after.takeWhile isWsChar).length

/-- Backtracking over the `[^<:]*` width `k` (largest first): the
character at index `k` must be `:` or `>`; then the capture follows. -/
def kLoop (rest : List Char) : Nat → Option (List Char)
  | 0 => if termOkC (rest.get? 0) then tryCap (rest.drop 1) else none
  | k + 1 =>
    match (if termOkC (rest.get? (k + 1)) then tryCap (rest.drop (k + 2)) else none) with
    | some r => some r
    | none => kLoop rest k

/-- Try the whole label pattern anchored at the head of `l`. -/
def matchLabAt (lab l : List Char) : Option (List Char) :=
  if matchCI lab l then
    let rest := l.drop lab.length
    kLoop rest (rest.takeWhile fun c => ¬(c = '<' ∨ c = ':')).length
  else none

/-- `re.search` for one label: leftmost matching start position. -/
def searchLab (lab : List Char) : List Char → Option (List Char)
  | [] => none
  | c :: t =>
    match matchLabAt lab (c :: t) with
    | some r => some r
    | none => searchLab lab t

def revLabels : List (List Char) :=
  ["Revision Date".data, "Date".data, "Last updated".data, "Dernière mise".data]

/-- `_find_revision_date` (src/monograph.py lines 35–42). -/
def _find_revision_date (html : String) : Option String :=
  (revLabels.findSome? fun lab =>
    match searchLab lab html.data with
    | some cap => _parse_date_chars cap
    | none => none).map List.asString

/-! ### Fetch and discovery (src/monograph.py lines 44–62)

The HTTP layer is abstracted: a page fetch either yields a status and a
body, or fails at the transport level (an `httpx` exception, which the
source lets propagate). -/

/-- `pm_page_url_for_drug_code` (src/monograph.py lines 44–45). -/
def pm_page_url_for_drug_code (drug_code : String) : String :=
  "https://health-products.canada.ca/dpd-bdpp/pm-mp.do?lang=en&code=" ++ drug_code

/-- An HTTP GET outcome: a response, or a failed transport. -/
inductive HttpResult where
  | response (status : Nat) (body : String)
  | transportFailure
  deriving DecidableEq

deriving instance DecidableEq for Except

/-- `fetch_pm_for_drug_code` (src/monograph.py lines 47–55), given the
response for the page URL.  A transport failure propagates as the error
case; a non-200 status returns the empty pair; a 200 body goes through
both extractors. -/
def fetch_pm_for_drug_code (r : HttpResult) :
    Except Unit (Option String × Option String) :=
  match r with
  | .transportFailure => .error ()
  | .response st body =>
    if st ≠ 200 then .ok (none, none)
    else .ok (_best_pdf_from_html body, _find_revision_date body)

/-- `discover_monograph_for_din` (src/monograph.py lines 57–62).
`din_to_drugcode.get(din)` is the mapping; `if not drug_code` is true for
a missing key and for the empty string, and only past that guard is a
client created and the fetch issued (`respond` gives the response the
network would return for a drug code). -/
def discover_monograph_for_din (din : String)
    (din_to_drugcode : String → Option String)
    (respond : String → HttpResult) :
    Except Unit (Option String × Option String) :=
  match din_to_drugcode din with
  | none => .ok (none, none)
  | some dc =>
    if dc = "" then .ok (none, none)
    else fetch_pm_for_drug_code (respond dc)

/-! ### `batch_discover` (src/monograph.py lines 82–99)

Each identifier's task runs `discover_monograph_for_din`, catches every
exception into the empty pair, and stores its own key in the results
mapping; `asyncio.gather` joins all tasks.  The per-identifier outcome is
a function of that identifier alone, so the result mapping is the map
below; the semaphore discipline is modelled separately. -/

/-- The `try/except` body of `one(d)`: an exception becomes `(None, None)`. -/
def handleOne (r : Except Unit (Option String × Option String)) :
    Option String × Option String :=
  match r with
  | .ok v => v
  | .error _ => (none, none)

/-- `batch_discover` results mapping (src/monograph.py lines 82–99),
parameterised by the per-identifier pipeline outcome. -/
def batch_discover (dins : List String)
    (runOne : String → Except Unit (Option String × Option String)) :
    List (String × (Option String × Option String)) :=
  dins.map fun d => (d, handleOne (runOne d))

/-! ### Semaphore discipline of `batch_discover`

`async with sem:` wraps each task's fetch: a task may enter flight only by
acquiring one of the `concurrency` permits and releases it on completion.
The scheduler below may interleave task starts and finishes arbitrarily. -/

inductive TaskPhase where
  | pending
  | inFlight
  | finished
  deriving DecidableEq

structure SchedState where
  phases : List TaskPhase
  avail : Nat
  deriving DecidableEq

/-- Number of tasks currently holding a permit (fetch in flight). -/
def inFlightCount (s : SchedState) : Nat :=
  s.phases.countP fun p => p = TaskPhase.inFlight

/-- Initial state: `n` pending tasks, `limit` free permits
(`asyncio.Semaphore(concurrency)`, default 10). -/
def initSched (n limit : Nat) : SchedState :=
  ⟨List.replicate n TaskPhase.pending, limit⟩

/-- One scheduler step: a pending task acquires a free permit and goes in
flight, or an in-flight task finishes and releases its permit. -/
inductive SchedStep : SchedState → SchedState → Prop where
  | start (s : SchedState) (i : Nat) (h : s.phases.get? i = some TaskPhase.pending)
      (a : Nat) (ha : s.avail = a + 1) :
      SchedStep s ⟨s.phases.set i TaskPhase.inFlight, a⟩
  | finish (s : SchedState) (i : Nat) (h : s.phases.get? i = some TaskPhase.inFlight) :
      SchedStep s ⟨s.phases.set i TaskPhase.finished, s.avail + 1⟩

/-! ### Revalidation (src/monograph.py lines 64–77, src/run_pipeline.py lines 299–312) -/

def UA : String := "PillScanUpdater/1.0 (+ops@pillscan.ca)"

/-- The request headers built by `head_conditional`: the conditional
headers are added only for truthy (non-`None`, non-empty) stored
validators. -/
def head_conditional_headers (etag last_modified : Option String) :
    List (String × String) :=
  [("User-Agent", UA)] ++
  (match etag with
   | some e => if e = "" then [] else [("If-None-Match", e)]
   | none => []) ++
  (match last_modified with
   | some l => if l = "" then [] else [("If-Modified-Since", l)]
   | none => [])

/-- Plain-dict lookup `hdrs.get(k)`: case-sensitive on the stored keys. -/
def getHeader (hdrs : List (String × String)) (k : String) : Option String :=
  (hdrs.find? fun p => p.1 = k).map Prod.snd

/-- `dict(r.headers)` as returned by `head_conditional`: httpx `Headers`
stores each wire header as (raw key, lower-cased key, value) and its
mapping iteration yields the lower-cased key, so the plain dict built from
it has lower-cased keys. -/
def headersDict (raw : List (String × String)) : List (String × String) :=
  raw.map fun p => (⟨strLower p.1.data⟩, p.2)

/-- Modelled from the spec: the `RevalidationOutcome` classification of
§3/§4.5 (`Unchanged`/`Changed`/`Inconclusive`); the code keeps it implicit
in the status checks of the HEAD loop. -/
inductive RevalidationOutcome where
  | Unchanged
  | Changed
  | Inconclusive
  deriving DecidableEq

/-- Modelled from the spec: 304 → Unchanged, 200 → Changed, anything else
→ Inconclusive. -/
def outcome_of_status (sc : Nat) : RevalidationOutcome :=
  if sc = 304 then .Unchanged else if sc = 200 then .Changed else .Inconclusive

/-- The monograph validator columns of one catalog row. -/
structure MonographRow where
  pm_etag : Option String
  pm_last_modified : Option String
  pm_last_checked_at : Option Nat
  deriving DecidableEq

/-- The per-row HEAD-check update of src/run_pipeline.py lines 304–311,
taking the wire response headers: `head_conditional` hands back
`dict(r.headers)` (lower-cased keys, `headersDict`), the loop records the
check time, keeps everything on 304, on 200 assigns
`hdrs.get("ETag")`/`hdrs.get("Last-Modified")` — case-sensitive lookups of
canonical-case names in that lower-cased dict — and otherwise leaves the
validators alone. -/
def head_check_update (sc : Nat) (raw : List (String × String)) (now : Nat)
    (row : MonographRow) : MonographRow :=
  let hdrs := headersDict raw
  let row1 : MonographRow :=
    { row with pm_last_checked_at := some now }
  if sc = 304 then row1
  else if sc = 200 then
    { row1 with
      pm_etag := getHeader hdrs "ETag"
      pm_last_modified := getHeader hdrs "Last-Modified" }
  else row1

/-! ### Spec-side definitions for refinement claims -/

/-- Rest of the list after the first occurrence of `pat`, if any. -/
def afterSub (pat : List Char) : List Char → Option (List Char)
  | [] => if isPrefixL pat [] then some [] else none
  | c :: t =>
    if isPrefixL pat (c :: t) then some ((c :: t).drop pat.length)
    else afterSub pat t

/-- Modelled from the spec: the URL's authority — the component between
the scheme separator and the next `/`, `?` or `#`. -/
def authorityOf (u : List Char) : List Char :=
  match afterSub "://".data u with
  | some r => r.takeWhile fun c => ¬(c = '/' ∨ c = '?' ∨ c = '#')
  | none => []

/-- Modelled from the spec: the §4.3 scoring rule, whose third clause
awards +1 when the URL's *authority* matches the canonical source domain
(the language-token clauses are as in the code). -/
def spec_score (u : List Char) : Int :=
  (if containsSub engToken (strLower u) then 2 else 0) +
  (if containsSub fraToken (strLower u) then -2 else 0) +
  (if authorityOf (strLower u) = "health-products.canada.ca".data then 1 else 0)

/-- Maximum of a score function over a candidate list. -/
def maxScoreWith (f : List Char → Int) : List (List Char) → Int
  | [] => 0
  | h :: t => t.foldl (fun a c => max a (f c)) (f h)

/-- Modelled from the spec: pick the highest-scoring candidate, ties
broken by first-seen order. -/
def spec_select (cs : List (List Char)) : Option (List Char) :=
  cs.find? fun c => decide (maxScoreWith spec_score cs ≤ spec_score c)




/-! ### Helper lemmas -/

theorem matchCI_strLower_take {p l : List Char} (h : matchCI p l = true) :
    strLower (l.take p.length) = strLower p := by
  induction p generalizing l with
  | nil => simp [strLower]
  | cons a as ih =>
    cases l with
    | nil => simp [matchCI] at h
    | cons b bs =>
      rw [matchCI] at h
      split at h
      · next heq =>
        simp only [List.length_cons, List.take_succ_cons, strLower, List.map]
        rw [← heq]
        have := ih h
        simp only [strLower] at this
        rw [this]
      · exact absurd h (by simp)

theorem splitQuote_eq {l run rest : List Char}
    (h : splitQuote l = some (run, rest)) : l = run ++ '"' :: rest := by
  induction l generalizing run rest with
  | nil => simp [splitQuote] at h
  | cons c t ih =>
    rw [splitQuote] at h
    split at h
    · next hc =>
      simp only [Option.some.injEq, Prod.mk.injEq] at h
      obtain ⟨rfl, rfl⟩ := h
      simp [hc]
    · next hc =>
      rw [Option.map_eq_some'] at h
      obtain ⟨⟨r1, r2⟩, hsq, hf⟩ := h
      simp only [Prod.mk.injEq] at hf
      obtain ⟨rfl, rfl⟩ := hf
      simp [ih hsq]

theorem findPdfsF_decomp :
    ∀ (fuel : Nat) (l u : List Char), u ∈ findPdfsF fuel l →
      ∃ pre h6 post, l = pre ++ h6 ++ u ++ '"' :: post ∧
        strLower h6 = hrefPat ∧ pdfOk u = true := by
  intro fuel
  induction fuel with
  | zero => intro l u h; simp [findPdfsF] at h
  | succ f ih =>
    intro l u h
    cases l with
    | nil => simp [findPdfsF] at h
    | cons c t =>
      rw [findPdfsF] at h
      split at h
      · next hm =>
        split at h
        · next run rest hsq =>
          split at h
          · next hp =>
            rcases List.mem_cons.mp h with rfl | h2
            · refine ⟨[], (c :: t).take hrefPat.length, rest, ?_, ?_, hp⟩
              · have h1 := (List.take_append_drop hrefPat.length (c :: t)).symm
                rw [splitQuote_eq hsq] at h1
                simpa [List.append_assoc] using h1
              · rw [matchCI_strLower_take hm]; decide
            · obtain ⟨pre, h6, post, hE, hL, hP⟩ := ih rest u h2
              refine ⟨(c :: t).take hrefPat.length ++ run ++ '"' :: pre, h6, post, ?_, hL, hP⟩
              have h1 := (List.take_append_drop hrefPat.length (c :: t)).symm
              rw [splitQuote_eq hsq, hE] at h1
              simpa [List.append_assoc] using h1
          · next hp =>
            obtain ⟨pre, h6, post, hE, hL, hP⟩ := ih t u h
            exact ⟨c :: pre, h6, post, by simp [hE, List.append_assoc], hL, hP⟩
        · next hsq =>
          obtain ⟨pre, h6, post, hE, hL, hP⟩ := ih t u h
          exact ⟨c :: pre, h6, post, by simp [hE, List.append_assoc], hL, hP⟩
      · next hm =>
        obtain ⟨pre, h6, post, hE, hL, hP⟩ := ih t u h
        exact ⟨c :: pre, h6, post, by simp [hE, List.append_assoc], hL, hP⟩

theorem foldl_pick_first_max (t : List (List Char)) :
    ∀ b : List Char, ∃ pre post,
      b :: t = pre ++ (t.foldl pickStep b) :: post ∧
      (∀ c ∈ pre, score c < score (t.foldl pickStep b)) ∧
      (∀ c ∈ b :: t, score c ≤ score (t.foldl pickStep b)) := by
  induction t with
  | nil =>
    intro b
    refine ⟨[], [], rfl, by simp, ?_⟩
    intro c hc
    rcases List.mem_cons.mp hc with rfl | hc
    · exact le_refl _
    · cases hc
  | cons c t ih =>
    intro b
    rw [List.foldl_cons]
    by_cases hbc : score b < score c
    · have hstep : pickStep b c = c := by simp [pickStep, hbc]
      rw [hstep]
      obtain ⟨pre, post, hE, hPre, hAll⟩ := ih c
      refine ⟨b :: pre, post, by rw [List.cons_append, ← hE], ?_, ?_⟩
      · intro x hx
        rcases List.mem_cons.mp hx with rfl | hx
        · exact lt_of_lt_of_le hbc (hAll c (List.mem_cons_self c t))
        · exact hPre x hx
      · intro x hx
        rcases List.mem_cons.mp hx with rfl | hx
        · exact le_of_lt (lt_of_lt_of_le hbc (hAll c (List.mem_cons_self c t)))
        · exact hAll x hx
    · have hstep : pickStep b c = b := by simp [pickStep, hbc]
      rw [hstep]
      obtain ⟨pre, post, hE, hPre, hAll⟩ := ih b
      cases pre with
      | nil =>
        simp only [List.nil_append] at hE
        injection hE with hb hpost
        refine ⟨[], c :: t, ?_, by simp, ?_⟩
        · rw [List.nil_append, ← hb]
        · intro x hx
          rcases List.mem_cons.mp hx with rfl | hx
          · rw [← hb]
          · rcases List.mem_cons.mp hx with rfl | hx
            · rw [← hb]; exact le_of_not_lt hbc
            · exact hAll x (List.mem_cons_of_mem b hx)
      | cons p pre2 =>
        rw [List.cons_append] at hE
        injection hE with hb ht
        refine ⟨b :: c :: pre2, post, ?_, ?_, ?_⟩
        · rw [List.cons_append, List.cons_append, ← ht]
        · intro x hx
          have hbr : score b < score (t.foldl pickStep b) := by
            have := hPre p (List.mem_cons_self p pre2)
            rwa [← hb] at this
          rcases List.mem_cons.mp hx with rfl | hx
          · exact hbr
          · rcases List.mem_cons.mp hx with rfl | hx
            · exact lt_of_le_of_lt (le_of_not_lt hbc) hbr
            · exact hPre x (List.mem_cons_of_mem p hx)
        · intro x hx
          rcases List.mem_cons.mp hx with rfl | hx
          · exact hAll x (List.mem_cons_self x t)
          · rcases List.mem_cons.mp hx with rfl | hx
            · exact le_trans (le_of_not_lt hbc) (hAll b (List.mem_cons_self b t))
            · exact hAll x (List.mem_cons_of_mem b hx)

theorem batch_discover_lookup
    (f : String → Except Unit (Option String × Option String)) (d : String) :
    ∀ dins : List String, d ∈ dins →
      (batch_discover dins f).lookup d = some (handleOne (f d)) := by
  intro dins
  induction dins with
  | nil => intro hd; cases hd
  | cons x xs ih =>
    intro hd
    by_cases hdx : d = x
    · subst hdx
      simp [batch_discover, List.lookup]
    · have hmem : d ∈ xs := by
        rcases List.mem_cons.mp hd with rfl | hx
        · exact absurd rfl hdx
        · exact hx
      have hbeq : (d == x) = false := by
        simp [hdx]
      simp only [batch_discover, List.map, List.lookup, hbeq]
      exact ih hmem

theorem countP_set_add (p : TaskPhase → Bool) :
    ∀ (l : List TaskPhase) (i : Nat) (x y : TaskPhase), l.get? i = some x →
      (l.set i y).countP p + (if p x then 1 else 0) =
      l.countP p + (if p y then 1 else 0) := by
  intro l
  induction l with
  | nil => intro i x y h; simp at h
  | cons a t ih =>
    intro i x y h
    cases i with
    | zero =>
      simp only [List.get?] at h
      injection h with hax
      subst hax
      simp only [List.set, List.countP_cons]
      omega
    | succ j =>
      simp only [List.get?] at h
      have := ih j x y h
      simp only [List.set, List.countP_cons]
      omega

theorem countP_replicate_pending (n : Nat) :
    (List.replicate n TaskPhase.pending).countP
      (fun p => p = TaskPhase.inFlight) = 0 := by
  induction n with
  | zero => rfl
  | succ k ih => simp [List.replicate, List.countP_cons, ih]

theorem sched_inv (limit : Nat) (s s2 : SchedState) (hstep : SchedStep s s2)
    (hinv : inFlightCount s + s.avail = limit) :
    inFlightCount s2 + s2.avail = limit := by
  cases hstep with
  | start i h a ha =>
    have hc := countP_set_add (fun p => decide (p = TaskPhase.inFlight))
      s.phases i TaskPhase.pending TaskPhase.inFlight h
    simp only [inFlightCount] at hinv ⊢
    simp at hc
    omega
  | finish i h =>
    have hc := countP_set_add (fun p => decide (p = TaskPhase.inFlight))
      s.phases i TaskPhase.inFlight TaskPhase.finished h
    simp only [inFlightCount] at hinv ⊢
    simp at hc
    omega

theorem sched_inv_reach (n limit : Nat) (s : SchedState)
    (h : Relation.ReflTransGen SchedStep (initSched n limit) s) :
    inFlightCount s + s.avail = limit := by
  induction h with
  | refl =>
    simp [inFlightCount, initSched, countP_replicate_pending]
  | tail h1 hstep ih => exact sched_inv limit _ _ hstep ih

/-! ### Character-level facts about ASCII lower-casing -/

theorem toNat_ofNat_small (n : Nat) (h : n < 55296) : (Char.ofNat n).toNat = n := by
  rw [Char.ofNat, dif_pos (Or.inl h : n.isValidChar)]
  rfl

theorem toNat_inj {a b : Char} (h : a.toNat = b.toNat) : a = b := by
  have ha := Char.ofNat_toNat a
  rw [h, Char.ofNat_toNat] at ha
  exact ha.symm

theorem char_le_iff {a b : Char} : a ≤ b ↔ a.toNat ≤ b.toNat := Char.le_def

theorem lowerChar_toNat (c : Char) :
    (lowerChar c).toNat =
      if 65 ≤ c.toNat ∧ c.toNat ≤ 90 then c.toNat + 32 else c.toNat := by
  unfold lowerChar
  split
  · next h => exact toNat_ofNat_small _ (by omega)
  · rfl

theorem lowerChar_not_upper (c : Char) :
    ¬(65 ≤ (lowerChar c).toNat ∧ (lowerChar c).toNat ≤ 90) := by
  rw [lowerChar_toNat]
  split <;> omega

theorem lowerChar_eq_self {c : Char} (h : ¬(65 ≤ c.toNat ∧ c.toNat ≤ 90)) :
    lowerChar c = c := by
  unfold lowerChar
  rw [if_neg h]

theorem lowerChar_idem (c : Char) : lowerChar (lowerChar c) = lowerChar c :=
  lowerChar_eq_self (lowerChar_not_upper c)

theorem strLower_idem (l : List Char) : strLower (strLower l) = strLower l := by
  induction l with
  | nil => rfl
  | cons c t ih =>
    simp only [strLower, List.map_cons] at ih ⊢
    rw [lowerChar_idem, ih]

theorem lowerChar_eq_low_iff {c t : Char} (ht : t.toNat < 65) :
    lowerChar c = t ↔ c = t := by
  constructor
  · intro h
    have h2 := lowerChar_toNat c
    rw [h] at h2
    split at h2
    · omega
    · exact (toNat_inj h2).symm
  · intro h
    subst h
    exact lowerChar_eq_self (by omega)

theorem lowerChar_between_iff {c lo hi : Char} (hhi : hi.toNat < 65) :
    (lo ≤ lowerChar c ∧ lowerChar c ≤ hi) ↔ (lo ≤ c ∧ c ≤ hi) := by
  simp only [char_le_iff]
  have h2 := lowerChar_toNat c
  split at h2 <;> omega

theorem decide_lowerChar_eq (c t : Char) (ht : t.toNat < 65) :
    decide (lowerChar c = t) = decide (c = t) := by
  rw [decide_eq_decide]
  exact lowerChar_eq_low_iff ht

theorem isDigit_lowerChar (c : Char) : (lowerChar c).isDigit = c.isDigit := by
  rw [Bool.eq_iff_iff]
  simp only [Char.isDigit, Bool.and_eq_true, decide_eq_true_eq]
  exact @lowerChar_between_iff c '0' '9' (by decide)

theorem toNat_of_isDigit {c : Char} (h : c.isDigit = true) :
    48 ≤ c.toNat ∧ c.toNat ≤ 57 := by
  simp only [Char.isDigit, Bool.and_eq_true, decide_eq_true_eq, char_le_iff] at h
  exact h

theorem lowerChar_of_isDigit {c : Char} (h : c.isDigit = true) : lowerChar c = c :=
  lowerChar_eq_self (by have := toNat_of_isDigit h; omega)

theorem lowerChar_of_le_low {c hi : Char} (hhi : hi.toNat < 65) (h2 : c ≤ hi) :
    lowerChar c = c :=
  lowerChar_eq_self (by rw [char_le_iff] at h2; omega)

theorem isAlpha_lowerChar (c : Char) : (lowerChar c).isAlpha = c.isAlpha := by
  by_cases h : 65 ≤ c.toNat ∧ c.toNat ≤ 90
  · have hl : (lowerChar c).toNat = c.toNat + 32 := by rw [lowerChar_toNat, if_pos h]
    rw [Bool.eq_iff_iff]
    simp only [Char.isAlpha, Char.isUpper, Char.isLower, Bool.or_eq_true,
      Bool.and_eq_true, decide_eq_true_eq]
    show ((65 ≤ (lowerChar c).toNat ∧ (lowerChar c).toNat ≤ 90) ∨
        (97 ≤ (lowerChar c).toNat ∧ (lowerChar c).toNat ≤ 122)) ↔
      ((65 ≤ c.toNat ∧ c.toNat ≤ 90) ∨ (97 ≤ c.toNat ∧ c.toNat ≤ 122))
    rw [hl]
    omega
  · rw [lowerChar_eq_self h]

theorem classChar_lowerChar (c : Char) : classChar (lowerChar c) = classChar c := by
  simp only [classChar, isAlpha_lowerChar, isDigit_lowerChar,
    decide_lowerChar_eq c '/' (by decide), decide_lowerChar_eq c '-' (by decide),
    decide_lowerChar_eq c ' ' (by decide)]

theorem isWsChar_lowerChar (c : Char) : isWsChar (lowerChar c) = isWsChar c := by
  simp only [isWsChar,
    decide_lowerChar_eq c ' ' (by decide), decide_lowerChar_eq c '\t' (by decide),
    decide_lowerChar_eq c '\n' (by decide), decide_lowerChar_eq c '\r' (by decide),
    decide_lowerChar_eq c '\x0b' (by decide), decide_lowerChar_eq c '\x0c' (by decide)]

theorem classChar_comp : classChar ∘ lowerChar = classChar :=
  funext fun c => classChar_lowerChar c

theorem isWsChar_comp : isWsChar ∘ lowerChar = isWsChar :=
  funext fun c => isWsChar_lowerChar c

theorem strLower_drop (l : List Char) (n : Nat) :
    strLower (l.drop n) = (strLower l).drop n := List.map_drop ..

theorem strLower_take (l : List Char) (n : Nat) :
    strLower (l.take n) = (strLower l).take n := List.map_take ..

theorem strLower_length (l : List Char) : (strLower l).length = l.length :=
  List.length_map ..

theorem strLower_eq_nil_iff (l : List Char) : strLower l = [] ↔ l = [] := by
  cases l <;> simp [strLower]

/-! ### The lower-cased header dict never matches a canonical-case name -/

theorem getHeader_headersDict_upper (raw : List (String × String)) (u : Char)
    (rest : List Char) (hu : 65 ≤ u.toNat ∧ u.toNat ≤ 90) :
    getHeader (headersDict raw) ⟨u :: rest⟩ = none := by
  induction raw with
  | nil => rfl
  | cons kv t ih =>
    have hne : ¬((⟨strLower kv.1.data⟩ : String) = (⟨u :: rest⟩ : String)) := by
      intro he
      injection he with hd
      cases hk : kv.1.data with
      | nil => rw [hk] at hd; simp [strLower] at hd
      | cons c cs =>
        rw [hk] at hd
        simp only [strLower, List.map_cons, List.cons.injEq] at hd
        exact lowerChar_not_upper c (by rw [hd.1]; exact hu)
    simp only [getHeader, headersDict, List.map_cons] at ih ⊢
    rw [List.find?_cons_of_neg _ (by simpa using hne)]
    exact ih

/-! ### Candidate extraction commutes with pre-lowering the markup -/

theorem matchCI_strLower (p : List Char) : ∀ l, matchCI p (strLower l) = matchCI p l := by
  induction p with
  | nil => intro l; rfl
  | cons a as ih =>
    intro l
    cases l with
    | nil => rfl
    | cons b bs =>
      simp only [strLower, List.map_cons]
      rw [matchCI, matchCI, lowerChar_idem]
      split
      · exact ih bs
      · rfl

theorem splitQuote_strLower : ∀ l : List Char, splitQuote (strLower l) =
    (splitQuote l).map fun p => (strLower p.1, strLower p.2) := by
  intro l
  induction l with
  | nil => rfl
  | cons c t ih =>
    simp only [strLower, List.map_cons]
    rw [splitQuote, splitQuote]
    have hiff := @lowerChar_eq_low_iff c '"' (by decide)
    by_cases hc : c = '"'
    · rw [if_pos (hiff.mpr hc), if_pos hc]
      rfl
    · rw [if_neg (fun h => hc (hiff.mp h)), if_neg hc]
      rw [show (List.map lowerChar t : List Char) = strLower t from rfl, ih]
      cases splitQuote t with
      | none => rfl
      | some pr => rfl

theorem pdfOk_strLower (r : List Char) : pdfOk (strLower r) = pdfOk r := by
  simp only [pdfOk]
  rw [← strLower_drop, strLower_idem]

theorem findPdfsF_strLower : ∀ (n : Nat) (l : List Char),
    findPdfsF n (strLower l) = (findPdfsF n l).map strLower := by
  intro n
  induction n with
  | zero => intro l; rfl
  | succ f ih =>
    intro l
    cases l with
    | nil => rfl
    | cons c t =>
      show findPdfsF (f + 1) (strLower (c :: t)) = _
      have hcons : strLower (c :: t) = lowerChar c :: strLower t := rfl
      rw [hcons, findPdfsF, findPdfsF]
      have hm : matchCI hrefPat (lowerChar c :: strLower t) = matchCI hrefPat (c :: t) := by
        rw [← hcons]
        exact matchCI_strLower hrefPat (c :: t)
      rw [hm]
      by_cases hmc : matchCI hrefPat (c :: t) = true
      · simp only [if_pos hmc]
        have hd : (lowerChar c :: strLower t).drop hrefPat.length =
            strLower ((c :: t).drop hrefPat.length) := by
          rw [← hcons, strLower_drop]
        rw [hd, splitQuote_strLower]
        cases hsq : splitQuote ((c :: t).drop hrefPat.length) with
        | none =>
          show findPdfsF f (strLower t) = (findPdfsF f t).map strLower
          exact ih t
        | some pr =>
          obtain ⟨run, rest⟩ := pr
          show (if pdfOk (strLower run) then strLower run :: findPdfsF f (strLower rest)
              else findPdfsF f (strLower t)) =
            (if pdfOk run then run :: findPdfsF f rest else findPdfsF f t).map strLower
          rw [pdfOk_strLower]
          by_cases hp : pdfOk run = true
          · simp only [if_pos hp, List.map_cons]
            rw [ih rest]
          · simp only [if_neg hp]
            exact ih t
      · simp only [if_neg hmc]
        exact ih t

theorem score_strLower (u : List Char) : score (strLower u) = score u := by
  simp only [score, strLower_idem]

theorem pickStep_strLower (b c : List Char) :
    pickStep (strLower b) (strLower c) = strLower (pickStep b c) := by
  simp only [pickStep, score_strLower, apply_ite strLower]

theorem foldl_pickStep_strLower (t : List (List Char)) : ∀ b,
    (t.map strLower).foldl pickStep (strLower b) = strLower (t.foldl pickStep b) := by
  induction t with
  | nil => intro b; rfl
  | cons c t ih =>
    intro b
    simp only [List.map_cons, List.foldl_cons]
    rw [pickStep_strLower]
    exact ih (pickStep b c)

theorem pickBest_strLower (cs : List (List Char)) :
    pickBest (cs.map strLower) = (pickBest cs).map strLower := by
  cases cs with
  | nil => rfl
  | cons b t =>
    simp only [List.map_cons, pickBest, Option.map_some']
    rw [foldl_pickStep_strLower]

theorem bestPdf_lower_eq (l : List Char) :
    pickBest (findPdfs (strLower l)) = (pickBest (findPdfs l)).map strLower := by
  unfold findPdfs
  rw [strLower_length, findPdfsF_strLower, pickBest_strLower]

/-! ### Date parsing commutes with pre-lowering its input -/

theorem findSome?_ext {α β : Type} {f g : α → Option β} :
    ∀ xs : List α, (∀ a ∈ xs, f a = g a) → xs.findSome? f = xs.findSome? g := by
  intro xs
  induction xs with
  | nil => intro _; rfl
  | cons a t ih =>
    intro h
    simp only [List.findSome?_cons]
    rw [h a (List.mem_cons_self a t)]
    cases g a with
    | some b => rfl
    | none => exact ih fun x hx => h x (List.mem_cons_of_mem a hx)

theorem stripL_strLower (l : List Char) : stripL (strLower l) = strLower (stripL l) := by
  simp only [stripL, strLower, List.dropWhile_map, isWsChar_comp, ← List.map_reverse]

theorem parseY_strLower (l : List Char) :
    parseY (strLower l) = (parseY l).map fun p => (p.1, strLower p.2) := by
  match l with
  | [] => rfl
  | [a] => rfl
  | [a, b] => rfl
  | [a, b, c] => rfl
  | a :: b :: c :: d :: r =>
    show parseY (lowerChar a :: lowerChar b :: lowerChar c :: lowerChar d :: strLower r) = _
    rw [parseY, parseY]
    simp only [isDigit_lowerChar]
    by_cases h : a.isDigit = true ∧ b.isDigit = true ∧ c.isDigit = true ∧ d.isDigit = true
    · rw [if_pos h, if_pos h, lowerChar_of_isDigit h.1, lowerChar_of_isDigit h.2.1,
        lowerChar_of_isDigit h.2.2.1, lowerChar_of_isDigit h.2.2.2]
      rfl
    · rw [if_neg h, if_neg h]
      rfl

theorem parseM_strLower (l : List Char) :
    parseM (strLower l) = (parseM l).map fun p => (p.1, strLower p.2) := by
  match l with
  | [] => rfl
  | [a] =>
    show parseM [lowerChar a] = (parseM [a]).map fun p => (p.1, strLower p.2)
    show ([] : List (Nat × List Char)) ++ [] ++
        (if '1' ≤ lowerChar a ∧ lowerChar a ≤ '9' then [(dval (lowerChar a), [])] else []) =
      List.map (fun p : Nat × List Char => (p.1, strLower p.2))
        (([] : List (Nat × List Char)) ++ [] ++
          (if '1' ≤ a ∧ a ≤ '9' then [(dval a, [])] else []))
    have hiff : ('1' ≤ lowerChar a ∧ lowerChar a ≤ '9') ↔ ('1' ≤ a ∧ a ≤ '9') :=
      lowerChar_between_iff (by decide)
    by_cases h : '1' ≤ a ∧ a ≤ '9'
    · rw [if_pos (hiff.mpr h), if_pos h, lowerChar_of_le_low (by decide) h.2]
      rfl
    · rw [if_neg (fun hh => h (hiff.mp hh)), if_neg h]
      rfl
  | a :: b :: r =>
    show parseM (lowerChar a :: lowerChar b :: strLower r) = _
    show (if lowerChar a = '1' ∧ '0' ≤ lowerChar b ∧ lowerChar b ≤ '2'
        then [(10 + dval (lowerChar b), strLower r)] else []) ++
      (if lowerChar a = '0' ∧ '1' ≤ lowerChar b ∧ lowerChar b ≤ '9'
        then [(dval (lowerChar b), strLower r)] else []) ++
      (if '1' ≤ lowerChar a ∧ lowerChar a ≤ '9'
        then [(dval (lowerChar a), lowerChar b :: strLower r)] else []) =
      List.map (fun p : Nat × List Char => (p.1, strLower p.2))
        ((if a = '1' ∧ '0' ≤ b ∧ b ≤ '2' then [(10 + dval b, r)] else []) ++
         (if a = '0' ∧ '1' ≤ b ∧ b ≤ '9' then [(dval b, r)] else []) ++
         (if '1' ≤ a ∧ a ≤ '9' then [(dval a, b :: r)] else []))
    simp only [List.map_append]
    congr 1
    · congr 1
      · have hiff : (lowerChar a = '1' ∧ '0' ≤ lowerChar b ∧ lowerChar b ≤ '2') ↔
            (a = '1' ∧ '0' ≤ b ∧ b ≤ '2') :=
          and_congr (lowerChar_eq_low_iff (by decide)) (lowerChar_between_iff (by decide))
        by_cases h : a = '1' ∧ '0' ≤ b ∧ b ≤ '2'
        · rw [if_pos (hiff.mpr h), if_pos h, lowerChar_of_le_low (by decide) h.2.2]
          rfl
        · rw [if_neg (fun hh => h (hiff.mp hh)), if_neg h]
          rfl
      · have hiff : (lowerChar a = '0' ∧ '1' ≤ lowerChar b ∧ lowerChar b ≤ '9') ↔
            (a = '0' ∧ '1' ≤ b ∧ b ≤ '9') :=
          and_congr (lowerChar_eq_low_iff (by decide)) (lowerChar_between_iff (by decide))
        by_cases h : a = '0' ∧ '1' ≤ b ∧ b ≤ '9'
        · rw [if_pos (hiff.mpr h), if_pos h, lowerChar_of_le_low (by decide) h.2.2]
          rfl
        · rw [if_neg (fun hh => h (hiff.mp hh)), if_neg h]
          rfl
    · have hiff : ('1' ≤ lowerChar a ∧ lowerChar a ≤ '9') ↔ ('1' ≤ a ∧ a ≤ '9') :=
        lowerChar_between_iff (by decide)
      by_cases h : '1' ≤ a ∧ a ≤ '9'
      · rw [if_pos (hiff.mpr h), if_pos h, lowerChar_of_le_low (by decide) h.2]
        rfl
      · rw [if_neg (fun hh => h (hiff.mp hh)), if_neg h]
        rfl

theorem parseD_strLower (l : List Char) :
    parseD (strLower l) = (parseD l).map fun p => (p.1, strLower p.2) := by
  match l with
  | [] => rfl
  | [a] =>
    show parseD [lowerChar a] = (parseD [a]).map fun p => (p.1, strLower p.2)
    show ([] : List (Nat × List Char)) ++ [] ++ [] ++
        (if '1' ≤ lowerChar a ∧ lowerChar a ≤ '9' then [(dval (lowerChar a), [])] else []) =
      List.map (fun p : Nat × List Char => (p.1, strLower p.2))
        (([] : List (Nat × List Char)) ++ [] ++ [] ++
          (if '1' ≤ a ∧ a ≤ '9' then [(dval a, [])] else []))
    have hiff : ('1' ≤ lowerChar a ∧ lowerChar a ≤ '9') ↔ ('1' ≤ a ∧ a ≤ '9') :=
      lowerChar_between_iff (by decide)
    by_cases h : '1' ≤ a ∧ a ≤ '9'
    · rw [if_pos (hiff.mpr h), if_pos h, lowerChar_of_le_low (by decide) h.2]
      rfl
    · rw [if_neg (fun hh => h (hiff.mp hh)), if_neg h]
      rfl
  | a :: b :: r =>
    show parseD (lowerChar a :: lowerChar b :: strLower r) = _
    show (if lowerChar a = '3' ∧ (lowerChar b = '0' ∨ lowerChar b = '1')
        then [(30 + dval (lowerChar b), strLower r)] else []) ++
      (if (lowerChar a = '1' ∨ lowerChar a = '2') ∧ (lowerChar b).isDigit
        then [(10 * dval (lowerChar a) + dval (lowerChar b), strLower r)] else []) ++
      (if lowerChar a = '0' ∧ '1' ≤ lowerChar b ∧ lowerChar b ≤ '9'
        then [(dval (lowerChar b), strLower r)] else []) ++
      (if '1' ≤ lowerChar a ∧ lowerChar a ≤ '9'
        then [(dval (lowerChar a), lowerChar b :: strLower r)] else []) =
      List.map (fun p : Nat × List Char => (p.1, strLower p.2))
        ((if a = '3' ∧ (b = '0' ∨ b = '1') then [(30 + dval b, r)] else []) ++
         (if (a = '1' ∨ a = '2') ∧ b.isDigit then [(10 * dval a + dval b, r)] else []) ++
         (if a = '0' ∧ '1' ≤ b ∧ b ≤ '9' then [(dval b, r)] else []) ++
         (if '1' ≤ a ∧ a ≤ '9' then [(dval a, b :: r)] else []))
    simp only [List.map_append]
    congr 1
    · congr 1
      · congr 1
        · have hiff : (lowerChar a = '3' ∧ (lowerChar b = '0' ∨ lowerChar b = '1')) ↔
              (a = '3' ∧ (b = '0' ∨ b = '1')) :=
            and_congr (lowerChar_eq_low_iff (by decide))
              (or_congr (lowerChar_eq_low_iff (by decide)) (lowerChar_eq_low_iff (by decide)))
          by_cases h : a = '3' ∧ (b = '0' ∨ b = '1')
          · have hb : lowerChar b = b := by
              rcases h.2 with h2 | h2 <;> rw [h2] <;> decide
            rw [if_pos (hiff.mpr h), if_pos h, hb]
            rfl
          · rw [if_neg (fun hh => h (hiff.mp hh)), if_neg h]
            rfl
        · have hdig : ((lowerChar b).isDigit = true) ↔ (b.isDigit = true) := by
            rw [isDigit_lowerChar]
          have hiff : ((lowerChar a = '1' ∨ lowerChar a = '2') ∧ (lowerChar b).isDigit = true) ↔
              ((a = '1' ∨ a = '2') ∧ b.isDigit = true) :=
            and_congr
              (or_congr (lowerChar_eq_low_iff (by decide)) (lowerChar_eq_low_iff (by decide)))
              hdig
          by_cases h : (a = '1' ∨ a = '2') ∧ b.isDigit = true
          · have ha : lowerChar a = a := by
              rcases h.1 with h2 | h2 <;> rw [h2] <;> decide
            rw [if_pos (hiff.mpr h), if_pos h, ha, lowerChar_of_isDigit h.2]
            rfl
          · rw [if_neg (fun hh => h (hiff.mp hh)), if_neg h]
            rfl
      · have hiff : (lowerChar a = '0' ∧ '1' ≤ lowerChar b ∧ lowerChar b ≤ '9') ↔
            (a = '0' ∧ '1' ≤ b ∧ b ≤ '9') :=
          and_congr (lowerChar_eq_low_iff (by decide)) (lowerChar_between_iff (by decide))
        by_cases h : a = '0' ∧ '1' ≤ b ∧ b ≤ '9'
        · rw [if_pos (hiff.mpr h), if_pos h, lowerChar_of_le_low (by decide) h.2.2]
          rfl
        · rw [if_neg (fun hh => h (hiff.mp hh)), if_neg h]
          rfl
    · have hiff : ('1' ≤ lowerChar a ∧ lowerChar a ≤ '9') ↔ ('1' ≤ a ∧ a ≤ '9') :=
        lowerChar_between_iff (by decide)
      by_cases h : '1' ≤ a ∧ a ≤ '9'
      · rw [if_pos (hiff.mpr h), if_pos h, lowerChar_of_le_low (by decide) h.2]
        rfl
      · rw [if_neg (fun hh => h (hiff.mp hh)), if_neg h]
        rfl

theorem parseMonName_strLower (tbl : List (List Char × Nat)) (l : List Char) :
    parseMonName tbl (strLower l) =
      (parseMonName tbl l).map fun p => (p.1, strLower p.2) := by
  induction tbl with
  | nil => rfl
  | cons nm t ih =>
    simp only [parseMonName, List.findSome?_cons]
    rw [matchCI_strLower]
    by_cases h : matchCI nm.1 l = true
    · rw [if_pos h, if_pos h]
      show some (nm.2, (strLower l).drop nm.1.length) =
        some (nm.2, strLower (l.drop nm.1.length))
      rw [strLower_drop]
    · rw [if_neg h, if_neg h]
      exact ih

theorem expectC_strLower (sep : Char) (hsep : sep.toNat < 65) :
    ∀ l, expectC sep (strLower l) = (expectC sep l).map strLower := by
  intro l
  cases l with
  | nil => rfl
  | cons a r =>
    show expectC sep (lowerChar a :: strLower r) = _
    rw [expectC, expectC]
    by_cases h : a = sep
    · rw [if_pos ((lowerChar_eq_low_iff hsep).mpr h), if_pos h]
      rfl
    · rw [if_neg (fun hh => h ((lowerChar_eq_low_iff hsep).mp hh)), if_neg h]
      rfl

theorem fmtYMD_strLower (sep : Char) (hsep : sep.toNat < 65) (l : List Char) :
    fmtYMD sep (strLower l) = fmtYMD sep l := by
  rw [fmtYMD, fmtYMD, parseY_strLower]
  cases parseY l with
  | none => rfl
  | some yr =>
    obtain ⟨y, r1⟩ := yr
    show (match expectC sep (strLower r1) with
      | none => none
      | some r2 =>
        (parseM r2).findSome? fun mm : Nat × List Char =>
          match expectC sep mm.2 with
          | none => none
          | some r4 =>
            (parseD r4).findSome? fun dd : Nat × List Char =>
              if dd.2 = [] then some (y, mm.1, dd.1) else none) =
      (match expectC sep r1 with
      | none => none
      | some r2 =>
        (parseM r2).findSome? fun mm : Nat × List Char =>
          match expectC sep mm.2 with
          | none => none
          | some r4 =>
            (parseD r4).findSome? fun dd : Nat × List Char =>
              if dd.2 = [] then some (y, mm.1, dd.1) else none)
    rw [expectC_strLower sep hsep]
    cases expectC sep r1 with
    | none => rfl
    | some r2 =>
      show ((parseM (strLower r2)).findSome? fun mm : Nat × List Char =>
          match expectC sep mm.2 with
          | none => none
          | some r4 =>
            (parseD r4).findSome? fun dd : Nat × List Char =>
              if dd.2 = [] then some (y, mm.1, dd.1) else none) =
        ((parseM r2).findSome? fun mm : Nat × List Char =>
          match expectC sep mm.2 with
          | none => none
          | some r4 =>
            (parseD r4).findSome? fun dd : Nat × List Char =>
              if dd.2 = [] then some (y, mm.1, dd.1) else none)
      rw [parseM_strLower, List.findSome?_map]
      apply findSome?_ext
      intro mm _
      show (match expectC sep (strLower mm.2) with
        | none => none
        | some r4 =>
          (parseD r4).findSome? fun dd : Nat × List Char =>
            if dd.2 = [] then some (y, mm.1, dd.1) else none) =
        (match expectC sep mm.2 with
        | none => none
        | some r4 =>
          (parseD r4).findSome? fun dd : Nat × List Char =>
            if dd.2 = [] then some (y, mm.1, dd.1) else none)
      rw [expectC_strLower sep hsep]
      cases expectC sep mm.2 with
      | none => rfl
      | some r4 =>
        show ((parseD (strLower r4)).findSome? fun dd : Nat × List Char =>
            if dd.2 = [] then some (y, mm.1, dd.1) else none) =
          ((parseD r4).findSome? fun dd : Nat × List Char =>
            if dd.2 = [] then some (y, mm.1, dd.1) else none)
        rw [parseD_strLower, List.findSome?_map]
        apply findSome?_ext
        intro dd _
        show (if strLower dd.2 = [] then some (y, mm.1, dd.1) else none) =
          (if dd.2 = [] then some (y, mm.1, dd.1) else none)
        by_cases hnil : dd.2 = []
        · rw [if_pos ((strLower_eq_nil_iff dd.2).mpr hnil), if_pos hnil]
        · rw [if_neg (fun hh => hnil ((strLower_eq_nil_iff dd.2).mp hh)), if_neg hnil]

theorem fmtDMonY_strLower (tbl : List (List Char × Nat)) (l : List Char) :
    fmtDMonY tbl (strLower l) = fmtDMonY tbl l := by
  rw [fmtDMonY, fmtDMonY, parseD_strLower, List.findSome?_map]
  apply findSome?_ext
  intro dd _
  show (match expectC '-' (strLower dd.2) with
    | none => none
    | some r2 =>
      match parseMonName tbl r2 with
      | none => none
      | some (m, r3) =>
        match expectC '-' r3 with
        | none => none
        | some r4 =>
          match parseY r4 with
          | none => none
          | some (y, r5) => if r5 = [] then some (y, m, dd.1) else none) =
    (match expectC '-' dd.2 with
    | none => none
    | some r2 =>
      match parseMonName tbl r2 with
      | none => none
      | some (m, r3) =>
        match expectC '-' r3 with
        | none => none
        | some r4 =>
          match parseY r4 with
          | none => none
          | some (y, r5) => if r5 = [] then some (y, m, dd.1) else none)
  rw [expectC_strLower '-' (by decide)]
  cases expectC '-' dd.2 with
  | none => rfl
  | some r2 =>
    show (match parseMonName tbl (strLower r2) with
      | none => none
      | some (m, r3) =>
        match expectC '-' r3 with
        | none => none
        | some r4 =>
          match parseY r4 with
          | none => none
          | some (y, r5) => if r5 = [] then some (y, m, dd.1) else none) =
      (match parseMonName tbl r2 with
      | none => none
      | some (m, r3) =>
        match expectC '-' r3 with
        | none => none
        | some r4 =>
          match parseY r4 with
          | none => none
          | some (y, r5) => if r5 = [] then some (y, m, dd.1) else none)
    rw [parseMonName_strLower]
    cases parseMonName tbl r2 with
    | none => rfl
    | some mr =>
      obtain ⟨m, r3⟩ := mr
      show (match expectC '-' (strLower r3) with
        | none => none
        | some r4 =>
          match parseY r4 with
          | none => none
          | some (y, r5) => if r5 = [] then some (y, m, dd.1) else none) =
        (match expectC '-' r3 with
        | none => none
        | some r4 =>
          match parseY r4 with
          | none => none
          | some (y, r5) => if r5 = [] then some (y, m, dd.1) else none)
      rw [expectC_strLower '-' (by decide)]
      cases expectC '-' r3 with
      | none => rfl
      | some r4 =>
        show (match parseY (strLower r4) with
          | none => none
          | some (y, r5) => if r5 = [] then some (y, m, dd.1) else none) =
          (match parseY r4 with
          | none => none
          | some (y, r5) => if r5 = [] then some (y, m, dd.1) else none)
        rw [parseY_strLower]
        cases parseY r4 with
        | none => rfl
        | some yr =>
          obtain ⟨y, r5⟩ := yr
          show (if strLower r5 = [] then some (y, m, dd.1) else none) =
            (if r5 = [] then some (y, m, dd.1) else none)
          by_cases hnil : r5 = []
          · rw [if_pos ((strLower_eq_nil_iff r5).mpr hnil), if_pos hnil]
          · rw [if_neg (fun hh => hnil ((strLower_eq_nil_iff r5).mp hh)), if_neg hnil]

theorem fmtDMY_strLower (l : List Char) : fmtDMY (strLower l) = fmtDMY l := by
  rw [fmtDMY, fmtDMY, parseD_strLower, List.findSome?_map]
  apply findSome?_ext
  intro dd _
  show (match expectC '/' (strLower dd.2) with
    | none => none
    | some r2 =>
      (parseM r2).findSome? fun mm : Nat × List Char =>
        match expectC '/' mm.2 with
        | none => none
        | some r4 =>
          match parseY r4 with
          | none => none
          | some (y, r5) => if r5 = [] then some (y, mm.1, dd.1) else none) =
    (match expectC '/' dd.2 with
    | none => none
    | some r2 =>
      (parseM r2).findSome? fun mm : Nat × List Char =>
        match expectC '/' mm.2 with
        | none => none
        | some r4 =>
          match parseY r4 with
          | none => none
          | some (y, r5) => if r5 = [] then some (y, mm.1, dd.1) else none)
  rw [expectC_strLower '/' (by decide)]
  cases expectC '/' dd.2 with
  | none => rfl
  | some r2 =>
    show ((parseM (strLower r2)).findSome? fun mm : Nat × List Char =>
        match expectC '/' mm.2 with
        | none => none
        | some r4 =>
          match parseY r4 with
          | none => none
          | some (y, r5) => if r5 = [] then some (y, mm.1, dd.1) else none) =
      ((parseM r2).findSome? fun mm : Nat × List Char =>
        match expectC '/' mm.2 with
        | none => none
        | some r4 =>
          match parseY r4 with
          | none => none
          | some (y, r5) => if r5 = [] then some (y, mm.1, dd.1) else none)
    rw [parseM_strLower, List.findSome?_map]
    apply findSome?_ext
    intro mm _
    show (match expectC '/' (strLower mm.2) with
      | none => none
      | some r4 =>
        match parseY r4 with
        | none => none
        | some (y, r5) => if r5 = [] then some (y, mm.1, dd.1) else none) =
      (match expectC '/' mm.2 with
      | none => none
      | some r4 =>
        match parseY r4 with
        | none => none
        | some (y, r5) => if r5 = [] then some (y, mm.1, dd.1) else none)
    rw [expectC_strLower '/' (by decide)]
    cases expectC '/' mm.2 with
    | none => rfl
    | some r4 =>
      show (match parseY (strLower r4) with
        | none => none
        | some (y, r5) => if r5 = [] then some (y, mm.1, dd.1) else none) =
        (match parseY r4 with
        | none => none
        | some (y, r5) => if r5 = [] then some (y, mm.1, dd.1) else none)
      rw [parseY_strLower]
      cases parseY r4 with
      | none => rfl
      | some yr =>
        obtain ⟨y, r5⟩ := yr
        show (if strLower r5 = [] then some (y, mm.1, dd.1) else none) =
          (if r5 = [] then some (y, mm.1, dd.1) else none)
        by_cases hnil : r5 = []
        · rw [if_pos ((strLower_eq_nil_iff r5).mpr hnil), if_pos hnil]
        · rw [if_neg (fun hh => hnil ((strLower_eq_nil_iff r5).mp hh)), if_neg hnil]

theorem tryFormats_strLower (t : List Char) : tryFormats (strLower t) = tryFormats t := by
  simp only [tryFormats]
  apply findSome?_ext
  intro f hf
  simp only [List.mem_cons, List.not_mem_nil, or_false] at hf
  rcases hf with rfl | rfl | rfl | rfl | rfl
  · rw [fmtYMD_strLower '-' (by decide)]
  · rw [fmtDMonY_strLower]
  · rw [fmtDMonY_strLower]
  · rw [fmtYMD_strLower '/' (by decide)]
  · rw [fmtDMY_strLower]

theorem findYear_strLower : ∀ l : List Char, findYear (strLower l) = findYear l := by
  intro l
  induction l with
  | nil => rfl
  | cons a t ih =>
    cases t with
    | nil => rfl
    | cons b t2 =>
      cases t2 with
      | nil => rfl
      | cons c t3 =>
        cases t3 with
        | nil => rfl
        | cons d rest =>
          show findYear (lowerChar a :: lowerChar b :: lowerChar c :: lowerChar d ::
            strLower rest) = _
          rw [findYear, findYear]
          have hdc : ((lowerChar c).isDigit = true) ↔ (c.isDigit = true) := by
            rw [isDigit_lowerChar]
          have hdd : ((lowerChar d).isDigit = true) ↔ (d.isDigit = true) := by
            rw [isDigit_lowerChar]
          have hiff : (((lowerChar a = '2' ∧ lowerChar b = '0') ∨
              (lowerChar a = '1' ∧ lowerChar b = '9')) ∧
              (lowerChar c).isDigit = true ∧ (lowerChar d).isDigit = true) ↔
              (((a = '2' ∧ b = '0') ∨ (a = '1' ∧ b = '9')) ∧
                c.isDigit = true ∧ d.isDigit = true) :=
            and_congr
              (or_congr
                (and_congr (lowerChar_eq_low_iff (by decide)) (lowerChar_eq_low_iff (by decide)))
                (and_congr (lowerChar_eq_low_iff (by decide)) (lowerChar_eq_low_iff (by decide))))
              (and_congr hdc hdd)
          by_cases h : ((a = '2' ∧ b = '0') ∨ (a = '1' ∧ b = '9')) ∧
              c.isDigit = true ∧ d.isDigit = true
          · have ha : lowerChar a = a := by
              rcases h.1 with ⟨h1, _⟩ | ⟨h1, _⟩ <;> rw [h1] <;> decide
            have hb : lowerChar b = b := by
              rcases h.1 with ⟨_, h1⟩ | ⟨_, h1⟩ <;> rw [h1] <;> decide
            rw [if_pos (hiff.mpr h), if_pos h, ha, hb, lowerChar_of_isDigit h.2.1,
              lowerChar_of_isDigit h.2.2]
          · rw [if_neg (fun hh => h (hiff.mp hh)), if_neg h]
            exact ih

theorem parse_date_chars_strLower (s : List Char) :
    _parse_date_chars (strLower s) = _parse_date_chars s := by
  simp only [_parse_date_chars]
  rw [stripL_strLower, tryFormats_strLower, findYear_strLower]

/-! ### Revision-date extraction commutes with pre-lowering the markup -/

theorem termOkC_map_lowerChar (o : Option Char) :
    termOkC (o.map lowerChar) = termOkC o := by
  cases o with
  | none => rfl
  | some c =>
    simp only [Option.map_some', termOkC, decide_lowerChar_eq c ':' (by decide),
      decide_lowerChar_eq c '>' (by decide)]

theorem capLoop_strLower (after : List Char) : ∀ n,
    capLoop (strLower after) n = (capLoop after n).map strLower := by
  intro n
  induction n with
  | zero =>
    simp only [capLoop]
    have hc : (strLower after).takeWhile classChar = strLower (after.takeWhile classChar) := by
      simp only [strLower, List.takeWhile_map, classChar_comp]
    rw [hc, ← strLower_take, strLower_length]
    by_cases h6 : 6 ≤ ((after.takeWhile classChar).take 30).length
    · rw [if_pos h6, if_pos h6]
      rfl
    · rw [if_neg h6, if_neg h6]
      rfl
  | succ k ih =>
    simp only [capLoop]
    have hd : (strLower after).drop (k + 1) = strLower (after.drop (k + 1)) :=
      (strLower_drop ..).symm
    rw [hd]
    have hc : (strLower (after.drop (k + 1))).takeWhile classChar =
        strLower ((after.drop (k + 1)).takeWhile classChar) := by
      simp only [strLower, List.takeWhile_map, classChar_comp]
    rw [hc, ← strLower_take, strLower_length]
    by_cases h6 : 6 ≤ (((after.drop (k + 1)).takeWhile classChar).take 30).length
    · rw [if_pos h6, if_pos h6]
      rfl
    · rw [if_neg h6, if_neg h6]
      exact ih

theorem tryCap_strLower (after : List Char) :
    tryCap (strLower after) = (tryCap after).map strLower := by
  simp only [tryCap]
  have hw : (strLower after).takeWhile isWsChar = strLower (after.takeWhile isWsChar) := by
    simp only [strLower, List.takeWhile_map, isWsChar_comp]
  rw [hw, strLower_length]
  exact capLoop_strLower after _

theorem kLoop_strLower (rest : List Char) : ∀ k,
    kLoop (strLower rest) k = (kLoop rest k).map strLower := by
  intro k
  induction k with
  | zero =>
    rw [kLoop, kLoop]
    have hg : (strLower rest).get? 0 = (rest.get? 0).map lowerChar := by
      simp [strLower, List.get?_map]
    rw [hg, termOkC_map_lowerChar]
    by_cases h : termOkC (rest.get? 0) = true
    · rw [if_pos h, if_pos h,
        show (strLower rest).drop 1 = strLower (rest.drop 1) from (strLower_drop ..).symm]
      exact tryCap_strLower _
    · rw [if_neg h, if_neg h]
      rfl
  | succ k ih =>
    rw [kLoop, kLoop]
    have hg : (strLower rest).get? (k + 1) = (rest.get? (k + 1)).map lowerChar := by
      simp [strLower, List.get?_map]
    rw [hg, termOkC_map_lowerChar]
    by_cases h : termOkC (rest.get? (k + 1)) = true
    · rw [if_pos h, if_pos h,
        show (strLower rest).drop (k + 2) = strLower (rest.drop (k + 2)) from
          (strLower_drop ..).symm,
        tryCap_strLower]
      cases tryCap (rest.drop (k + 2)) with
      | some cap => rfl
      | none =>
        show kLoop (strLower rest) k = (kLoop rest k).map strLower
        exact ih
    · rw [if_neg h, if_neg h]
      show kLoop (strLower rest) k = (kLoop rest k).map strLower
      exact ih

theorem matchLabAt_strLower (lab l : List Char) :
    matchLabAt lab (strLower l) = (matchLabAt lab l).map strLower := by
  simp only [matchLabAt]
  rw [matchCI_strLower]
  by_cases h : matchCI lab l = true
  · rw [if_pos h, if_pos h,
      show (strLower l).drop lab.length = strLower (l.drop lab.length) from
        (strLower_drop ..).symm]
    have hcomp : ((fun c => decide ¬(c = '<' ∨ c = ':')) ∘ lowerChar) =
        (fun c => decide ¬(c = '<' ∨ c = ':')) := by
      funext c
      simp only [Function.comp]
      rw [decide_eq_decide]
      exact not_congr (or_congr (lowerChar_eq_low_iff (by decide))
        (lowerChar_eq_low_iff (by decide)))
    have hk : (strLower (l.drop lab.length)).takeWhile (fun c => ¬(c = '<' ∨ c = ':')) =
        strLower ((l.drop lab.length).takeWhile fun c => ¬(c = '<' ∨ c = ':')) := by
      simp only [strLower, List.takeWhile_map, hcomp]
    rw [hk, strLower_length]
    exact kLoop_strLower _ _
  · rw [if_neg h, if_neg h]
    rfl

theorem searchLab_strLower (lab : List Char) : ∀ l,
    searchLab lab (strLower l) = (searchLab lab l).map strLower := by
  intro l
  induction l with
  | nil => rfl
  | cons c t ih =>
    show searchLab lab (lowerChar c :: strLower t) = _
    rw [searchLab, searchLab,
      show (lowerChar c :: strLower t : List Char) = strLower (c :: t) from rfl,
      matchLabAt_strLower]
    cases matchLabAt lab (c :: t) with
    | some r => rfl
    | none =>
      show searchLab lab (strLower t) = (searchLab lab t).map strLower
      exact ih

theorem revScan_strLower (l : List Char) :
    (revLabels.findSome? fun lab =>
      match searchLab lab (strLower l) with
      | some cap => _parse_date_chars cap
      | none => none) =
    (revLabels.findSome? fun lab =>
      match searchLab lab l with
      | some cap => _parse_date_chars cap
      | none => none) := by
  apply findSome?_ext
  intro lab _
  rw [searchLab_strLower]
  cases searchLab lab l with
  | none => rfl
  | some cap =>
    show _parse_date_chars (strLower cap) = _parse_date_chars cap
    exact parse_date_chars_strLower cap

/-! ### Claim theorems -/

/-- C1 counterexample: a 200 page with a revision-date label but no pdf
link yields an absent URL together with a present revision date, so a date
without a reference-document URL does occur. -/
theorem date_without_url_counterexample :
    fetch_pm_for_drug_code (.response 200 "<p>Revision Date: 2023-05-14</p>") =
      .ok ((none : Option String), some "2023-05-14") ∧
    (some "2023-05-14" : Option String) ≠ none := by
  exact ⟨by decide, by decide⟩

/-- C1 (amended): URL and date extraction run independently on every 200
body — a revision date may be present while the URL is absent — and any
non-200 status yields the empty pair. -/
theorem fetch_fields_independent :
    (∀ (st : Nat) (body : String), st ≠ 200 →
      fetch_pm_for_drug_code (.response st body) = .ok (none, none)) ∧
    (∀ body : String, fetch_pm_for_drug_code (.response 200 body) =
      .ok (_best_pdf_from_html body, _find_revision_date body)) ∧
    fetch_pm_for_drug_code (.response 200 "<b>Date: 2024-03-02</b>") =
      .ok (none, some "2024-03-02") := by
  refine ⟨?_, ?_, by decide⟩
  · intro st body h
    simp [fetch_pm_for_drug_code, h]
  · intro body
    simp [fetch_pm_for_drug_code]

/-- Witness for the amended C1 theorem at status 404. -/
theorem fetch_fields_independent_witness :
    fetch_pm_for_drug_code (.response 404 "irrelevant") = .ok (none, none) :=
  fetch_fields_independent.1 404 "irrelevant" (by decide)

/-- C2 counterexample: the code awards the canonical-source bonus by a
string-prefix test on `https://health-products.canada.ca`, not by the
URL's authority, so for a page whose second candidate has the canonical
authority under the `http` scheme the code keeps the first-seen candidate
while the claim's scoring rule picks the second. -/
theorem score_authority_counterexample :
    _best_pdf_from_html
        "<a href=\"https://example.com/b.pdf\"><a href=\"http://health-products.canada.ca/a.pdf\">" =
      some "https://example.com/b.pdf" ∧
    (spec_select (findPdfs
        ("<a href=\"https://example.com/b.pdf\"><a href=\"http://health-products.canada.ca/a.pdf\">" : String).data)).map
        List.asString =
      some "http://health-products.canada.ca/a.pdf" ∧
    some "https://example.com/b.pdf" ≠
      (some "http://health-products.canada.ca/a.pdf" : Option String) := by
  exact ⟨by decide, by decide, by decide⟩

/-- C2 (amended): whenever the scanner finds at least one candidate
(a double-quoted href value containing `.pdf` past its first character),
the extractor returns the first-seen candidate of maximal score, scoring
+2 for "eng", −2 for "fra", and +1 when the lowercased URL starts with
`https://health-products.canada.ca`. -/
theorem best_pdf_first_max (html : String) (hne : findPdfs html.data ≠ []) :
    ∃ u pre post, _best_pdf_from_html html = some u.asString ∧
      findPdfs html.data = pre ++ u :: post ∧
      (∀ c ∈ pre, score c < score u) ∧
      (∀ c ∈ findPdfs html.data, score c ≤ score u) := by
  cases hc : findPdfs html.data with
  | nil => exact absurd hc hne
  | cons b t =>
    obtain ⟨pre, post, hE, hPre, hAll⟩ := foldl_pick_first_max t b
    refine ⟨t.foldl pickStep b, pre, post, ?_, hE, hPre, hAll⟩
    simp [_best_pdf_from_html, pickBest, hc]

/-- Witness for the amended C2 theorem on markup with two candidates. -/
theorem best_pdf_first_max_witness :
    ∃ u pre post,
      _best_pdf_from_html "<a href=\"a.pdf\"><a href=\"b-eng.pdf\">" = some u.asString ∧
      findPdfs ("<a href=\"a.pdf\"><a href=\"b-eng.pdf\">" : String).data = pre ++ u :: post ∧
      (∀ c ∈ pre, score c < score u) ∧
      (∀ c ∈ findPdfs ("<a href=\"a.pdf\"><a href=\"b-eng.pdf\">" : String).data,
        score c ≤ score u) :=
  best_pdf_first_max "<a href=\"a.pdf\"><a href=\"b-eng.pdf\">" (by decide)

/-- C3: date parsing over the fixed format list, in order, with the
year fallback: ISO, day-month-name-year (abbreviated and full), slashed
year-first, slashed day-first (day/month, not month/day); an invalid
calendar date or a month/day reading falls through to the 4-digit-year
fallback, and with no year the result is absent. -/
theorem parse_date_formats :
    _parse_date "2023-05-14" = some "2023-05-14" ∧
    _parse_date "14-May-2023" = some "2023-05-14" ∧
    _parse_date "14-January-2023" = some "2023-01-14" ∧
    _parse_date "2023/05/14" = some "2023-05-14" ∧
    _parse_date "14/05/2023" = some "2023-05-14" ∧
    _parse_date "05/14/2023" = some "2023-01-01" ∧
    _parse_date "...updated in 2021..." = some "2021-01-01" ∧
    _parse_date "no date here" = none ∧
    _parse_date "2023-02-30" = some "2023-01-01" := by
  refine ⟨by decide, by decide, by decide, by decide, by decide, by decide,
    by decide, by decide, by decide⟩

/-- C4 (code bug in the 200 branch): `dict(r.headers)` has lower-cased
keys, so the loop's case-sensitive `hdrs.get("ETag")` and
`hdrs.get("Last-Modified")` always return `None`: on every 200 the stored
validators are cleared, never overwritten with the response's values — at
the failing input the response carries both headers yet the row ends with
both fields absent.  The 304 and other-status branches do behave as the
claim says: validators kept, check time recorded. -/
theorem revalidation_200_clears_validators :
    (∀ (raw : List (String × String)) (now : Nat) (row : MonographRow),
      (head_check_update 200 raw now row).pm_etag = none ∧
      (head_check_update 200 raw now row).pm_last_modified = none) ∧
    head_check_update 200
        [("ETag", "abc"), ("Last-Modified", "Tue, 07 Jan 2031 00:00:00 GMT")] 7
        ⟨some "old-etag", some "old-lm", none⟩ =
      ⟨none, none, some 7⟩ ∧
    (∀ (raw : List (String × String)) (now : Nat) (row : MonographRow) (sc : Nat),
      (head_check_update 304 raw now row).pm_etag = row.pm_etag ∧
      (head_check_update 304 raw now row).pm_last_modified = row.pm_last_modified ∧
      (head_check_update sc raw now row).pm_last_checked_at = some now) := by
  have hETag : ("ETag" : String) = ⟨'E' :: ['T', 'a', 'g']⟩ := by decide
  have hLM : ("Last-Modified" : String) =
      ⟨'L' :: ['a', 's', 't', '-', 'M', 'o', 'd', 'i', 'f', 'i', 'e', 'd']⟩ := by decide
  refine ⟨?_, by decide, ?_⟩
  · intro raw now row
    constructor
    · show getHeader (headersDict raw) "ETag" = none
      rw [hETag]
      exact getHeader_headersDict_upper raw 'E' _ (by decide)
    · show getHeader (headersDict raw) "Last-Modified" = none
      rw [hLM]
      exact getHeader_headersDict_upper raw 'L' _ (by decide)
  · intro raw now row sc
    refine ⟨rfl, rfl, ?_⟩
    simp only [head_check_update]
    split
    · rfl
    · split <;> rfl

/-- C5 counterexample: a 203 response (a 2xx status) with a body holding a
pdf link is treated as not found — the body is not handed to extraction
and no status/body pair is returned — even though extraction on that body
would find a URL. -/
theorem non200_not_extracted_counterexample :
    fetch_pm_for_drug_code (.response 203 "<a href=\"doc-eng.pdf\">") =
      .ok (none, none) ∧
    _best_pdf_from_html "<a href=\"doc-eng.pdf\">" = some "doc-eng.pdf" := by
  exact ⟨by decide, by decide⟩

/-- C5 (amended): only status exactly 200 is treated as found; every other
status — 2xx or not — yields the empty result (the status and body are not
returned to the caller), a 200 body is handed to both extractors, and a
failed transport is the distinct error outcome. -/
theorem fetch_status_discrimination :
    (∀ (st : Nat) (body : String), st ≠ 200 →
      fetch_pm_for_drug_code (.response st body) = .ok (none, none)) ∧
    (∀ body : String, fetch_pm_for_drug_code (.response 200 body) =
      .ok (_best_pdf_from_html body, _find_revision_date body)) ∧
    fetch_pm_for_drug_code .transportFailure = .error () := by
  refine ⟨?_, ?_, rfl⟩
  · intro st body h
    simp [fetch_pm_for_drug_code, h]
  · intro body
    simp [fetch_pm_for_drug_code]

/-- Witness for the amended C5 theorem at the 2xx status 204. -/
theorem fetch_status_discrimination_witness :
    fetch_pm_for_drug_code (.response 204 "<a href=\"x.pdf\">") = .ok (none, none) :=
  fetch_status_discrimination.1 204 "<a href=\"x.pdf\">" (by decide)

/-- C6: the batch result has one entry per input identifier in order, and
each identifier maps to its own pipeline outcome with an exception turned
into the empty pair — so one identifier's failure neither aborts the batch
nor disturbs sibling results. -/
theorem batch_discover_total (dins : List String)
    (f : String → Except Unit (Option String × Option String)) :
    (batch_discover dins f).map Prod.fst = dins ∧
    ∀ d ∈ dins, (batch_discover dins f).lookup d = some (handleOne (f d)) := by
  constructor
  · simp only [batch_discover, List.map_map]
    induction dins with
    | nil => rfl
    | cons x xs ih => simpa using ih
  · intro d hd
    exact batch_discover_lookup f d dins hd

/-- Witness for C6: a two-identifier batch where the first identifier's
pipeline raises still resolves the first to the empty pair. -/
theorem batch_discover_total_witness :
    (batch_discover ["00000001", "00000002"]
        (fun d => if d = "00000001" then .error () else .ok (some "u.pdf", none))).lookup
        "00000001" =
      some (handleOne ((fun d => if d = "00000001" then .error ()
        else .ok (some "u.pdf", none)) "00000001")) :=
  (batch_discover_total ["00000001", "00000002"]
    (fun d => if d = "00000001" then .error () else .ok (some "u.pdf", none))).2
    "00000001" (by decide)

/-- C7: under the semaphore discipline of `batch_discover` — a task must
hold one of the `limit` permits while its fetch is in flight — every state
reachable from the initial state by any interleaving of task starts and
finishes has at most `limit` fetches in flight. -/
theorem concurrency_cap (n limit : Nat) (s : SchedState)
    (h : Relation.ReflTransGen SchedStep (initSched n limit) s) :
    inFlightCount s ≤ limit := by
  have := sched_inv_reach n limit s h
  omega

/-- Witness for C7: after one task of two starts under limit 10, one fetch
is in flight. -/
theorem concurrency_cap_witness :
    inFlightCount ⟨(List.replicate 2 TaskPhase.pending).set 0 TaskPhase.inFlight, 9⟩ ≤ 10 :=
  concurrency_cap 2 10 _
    (Relation.ReflTransGen.single
      (SchedStep.start (initSched 2 10) 0 (by decide) 9 (by decide)))

/-- C8: every URL the extractor returns is the body of a double-quoted
href attribute (matched case-insensitively) containing `.pdf` past its
first character — so markup whose pdf links are single-quoted, unquoted,
or outside an href attribute yields no URL. -/
theorem extracted_url_from_quoted_href (html u : String)
    (h : _best_pdf_from_html html = some u) :
    ∃ pre h6 post, html.data = pre ++ h6 ++ u.data ++ '"' :: post ∧
      strLower h6 = hrefPat ∧ pdfOk u.data = true := by
  unfold _best_pdf_from_html at h
  rw [Option.map_eq_some'] at h
  obtain ⟨w, hpick, hu⟩ := h
  have hud : u.data = w := by rw [← hu]; rfl
  cases hc : findPdfs html.data with
  | nil => rw [hc] at hpick; simp [pickBest] at hpick
  | cons b t =>
    rw [hc] at hpick
    simp only [pickBest, Option.some.injEq] at hpick
    obtain ⟨pre0, post0, hE, _, _⟩ := foldl_pick_first_max t b
    have hmem : w ∈ findPdfsF html.data.length html.data := by
      have : w ∈ findPdfs html.data := by
        rw [hc, hE, hpick]
        exact List.mem_append_right _ (List.mem_cons_self _ _)
      simpa [findPdfs] using this
    obtain ⟨pre, h6, post, hEq, hL, hP⟩ :=
      findPdfsF_decomp html.data.length html.data w hmem
    exact ⟨pre, h6, post, by rw [hud]; exact hEq, hL, by rw [hud]; exact hP⟩

/-- Witness for C8 on a double-quoted link. -/
theorem extracted_url_from_quoted_href_witness :
    ∃ pre h6 post,
      ("<a href=\"x.pdf\">" : String).data =
        pre ++ h6 ++ ("x.pdf" : String).data ++ '"' :: post ∧
      strLower h6 = hrefPat ∧ pdfOk ("x.pdf" : String).data = true :=
  extracted_url_from_quoted_href "<a href=\"x.pdf\">" "x.pdf" (by decide)

/-- C9: a mapping that sends the identifier to the empty string behaves
exactly like one with no entry: the result is the empty pair, for every
fetcher — so no network request is issued. -/
theorem empty_drugcode_like_unmapped (din : String)
    (m m2 : String → Option String) (f f2 : String → HttpResult)
    (h : m din = some "") (h2 : m2 din = none) :
    discover_monograph_for_din din m f = .ok (none, none) ∧
    discover_monograph_for_din din m f = discover_monograph_for_din din m2 f2 := by
  simp [discover_monograph_for_din, h, h2]

/-- Witness for C9 with a concrete empty-string mapping. -/
theorem empty_drugcode_like_unmapped_witness :
    discover_monograph_for_din "00000001" (fun _ => some "")
        (fun _ => .transportFailure) = .ok (none, none) ∧
    discover_monograph_for_din "00000001" (fun _ => some "")
        (fun _ => .transportFailure) =
      discover_monograph_for_din "00000001" (fun _ => none)
        (fun _ => .transportFailure) :=
  empty_drugcode_like_unmapped "00000001" (fun _ => some "") (fun _ => none)
    (fun _ => .transportFailure) (fun _ => .transportFailure) rfl rfl

/-- C10 counterexample: two markups that differ only in the ASCII case of
the fragment "eng" inside the link produce different extraction results —
the matching is case-insensitive but the returned URL keeps the markup's
original case, so extraction is not literally invariant. -/
theorem case_invariance_counterexample :
    _best_pdf_from_html "<a href=\"a-eng.pdf\">" = some "a-eng.pdf" ∧
    _best_pdf_from_html "<a href=\"a-ENG.pdf\">" = some "a-ENG.pdf" ∧
    _best_pdf_from_html "<a href=\"a-ENG.pdf\">" ≠
      _best_pdf_from_html "<a href=\"a-eng.pdf\">" := by
  exact ⟨by decide, by decide, by decide⟩

/-- C10 (amended): every matching step is ASCII-case-insensitive — for any
two markups equal up to ASCII case, the extractor finds a candidate in one
iff it finds one in the other and selects the same candidate up to case,
and the extracted revision date is identical; scoring is invariant under
lowering, an uppercase HREF/.PDF link is found, and "ENG" scores +2.  The
returned URL keeps the markup's original case (see the counterexample), so
only the lowered selection, not the raw result, is invariant. -/
theorem case_insensitive_matching :
    (∀ l1 l2 : List Char, strLower l1 = strLower l2 →
      (pickBest (findPdfs l1)).map strLower = (pickBest (findPdfs l2)).map strLower) ∧
    (∀ html1 html2 : String, strLower html1.data = strLower html2.data →
      _find_revision_date html1 = _find_revision_date html2) ∧
    (∀ u : List Char, score (strLower u) = score u) ∧
    _best_pdf_from_html "<A HREF=\"DOC.PDF\">" = some "DOC.PDF" ∧
    score ("X-ENG.pdf" : String).data = 2 := by
  refine ⟨?_, ?_, score_strLower, by decide, by decide⟩
  · intro l1 l2 h
    rw [← bestPdf_lower_eq l1, ← bestPdf_lower_eq l2, h]
  · intro h1 h2 hh
    simp only [_find_revision_date]
    rw [← revScan_strLower h1.data, ← revScan_strLower h2.data, hh]

/-- Witness for the amended C10 theorem at concrete case-variant markups. -/
theorem case_insensitive_matching_witness :
    (pickBest (findPdfs ("<a href=\"a-ENG.pdf\">" : String).data)).map strLower =
      (pickBest (findPdfs ("<a href=\"a-eng.pdf\">" : String).data)).map strLower ∧
    _find_revision_date "<p>REVISION DATE: 14-MAY-2023</p>" =
      _find_revision_date "<p>revision date: 14-may-2023</p>" :=
  ⟨case_insensitive_matching.1 ("<a href=\"a-ENG.pdf\">" : String).data
      ("<a href=\"a-eng.pdf\">" : String).data (by decide),
   case_insensitive_matching.2.1 "<p>REVISION DATE: 14-MAY-2023</p>"
      "<p>revision date: 14-may-2023</p>" (by decide)⟩

end PillScan
